import Mathlib

/-!
Verification of the OpenFermion-Cirq four-qubit and three-qubit gate layer.

This file shallowly embeds the relevant parts of
`openfermioncirq/gates/four_qubit_gates.py` and
`openfermioncirq/gates/three_qubit_gates.py`:

* `stateSwapEigenComponent` — the module-level helper
  `state_swap_eigen_component(x, y, sign)`, including its validation
  prefix.  A Python string is modelled as a `List Char`; a Python value
  that may or may not be a string is modelled by the sum type `PyVal`.
* `DoubleExcGate` / `CombinedGate` — the data carried by
  `DoubleExcitationGate` and `CombinedDoubleExcitationGate`
  (a real exponent, and for the combined gate a triple of real weights).
* constructor normalisation (`doubleExcInit`, `combinedInit`),
  `absorb_exponent_into_weights` (`absorbExponentIntoWeights`),
  the `_eigen_components` lists, the `_value_equality_values_` data,
  and `_apply_unitary_` state-vector application.
* the `_decompose_` sequences of both four-qubit gates (as lists of
  elementary operations with their cirq unitaries) and of the two
  controlled three-qubit gates (as syntactic operation lists).

Machine reals (Python floats) are modelled as `ℝ`; Python `%` on reals
is `pymod` below.  Qubit ordering follows cirq's big-endian convention:
for qubits `(p, q, r, s)` the computational-basis index of a 16-entry
state vector has `p` as its most significant bit.
-/

/-- Python float modulo (`x % m` for `m > 0`): `x - m * ⌊x / m⌋`. -/
noncomputable def pymod (x m : ℝ) : ℝ := x - m * ⌊x / m⌋

/-- `pymod x m = m * Int.fract (x / m)` for `m ≠ 0`. -/
theorem pymod_eq_fract (x m : ℝ) (hm : m ≠ 0) :
    pymod x m = m * Int.fract (x / m) := by
  have h : m * (x / m) = x := by field_simp
  unfold pymod Int.fract
  rw [mul_sub, h]

theorem pymod_nonneg (x m : ℝ) (hm : 0 < m) : 0 ≤ pymod x m := by
  rw [pymod_eq_fract x m hm.ne']
  exact mul_nonneg hm.le (Int.fract_nonneg _)

theorem pymod_lt (x m : ℝ) (hm : 0 < m) : pymod x m < m := by
  rw [pymod_eq_fract x m hm.ne']
  calc m * Int.fract (x / m) < m * 1 :=
        (mul_lt_mul_left hm).2 (Int.fract_lt_one _)
    _ = m := mul_one m

/-- Two reals have the same `pymod 4` value iff they differ by an
integer multiple of 4. -/
theorem pymod_four_eq_iff (x y : ℝ) :
    pymod x 4 = pymod y 4 ↔ ∃ n : ℤ, x - y = 4 * n := by
  constructor
  · intro h
    refine ⟨⌊x / 4⌋ - ⌊y / 4⌋, ?_⟩
    unfold pymod at h
    push_cast
    linarith
  · rintro ⟨n, hn⟩
    have hx : x = y + 4 * n := by linarith
    subst hx
    unfold pymod
    have h4 : (y + 4 * (n : ℝ)) / 4 = y / 4 + (n : ℝ) := by ring
    rw [h4, Int.floor_add_int]
    push_cast
    ring

/-- The value of a Python binary-string literal, `int(x, 2)`:
left fold accumulating `2 * acc + digit`. -/
def binToNat (l : List Char) : ℕ :=
  l.foldl (fun a c => 2 * a + (if c = '1' then 1 else 0)) 0

/-- A character is a binary digit. -/
def isBinDigit (c : Char) : Prop := c = '0' ∨ c = '1'

instance (c : Char) : Decidable (isBinDigit c) := by
  unfold isBinDigit; infer_instance

theorem binToNat_foldl (a : ℕ) (l : List Char) :
    l.foldl (fun a c => 2 * a + (if c = '1' then 1 else 0)) a
      = a * 2 ^ l.length + binToNat l := by
  induction l generalizing a with
  | nil => simp [binToNat]
  | cons c t ih =>
      have hcons : binToNat (c :: t)
          = (2 * 0 + if c = '1' then 1 else 0) * 2 ^ t.length + binToNat t := by
        unfold binToNat
        rw [List.foldl_cons]
        exact ih _
      rw [List.foldl_cons, ih, hcons, List.length_cons]
      ring

theorem binToNat_lt (l : List Char) (h : ∀ c ∈ l, isBinDigit c) :
    binToNat l < 2 ^ l.length := by
  induction l with
  | nil => simp [binToNat]
  | cons c t ih =>
      have hc := h c (List.mem_cons_self c t)
      have ht : ∀ d ∈ t, isBinDigit d := fun d hd => h d (List.mem_cons_of_mem c hd)
      have ht2 := ih ht
      have hcons : binToNat (c :: t)
          = (2 * 0 + if c = '1' then 1 else 0) * 2 ^ t.length + binToNat t := by
        unfold binToNat
        rw [List.foldl_cons]
        exact binToNat_foldl _ t
      rw [hcons, List.length_cons]
      have hdig : (if c = '1' then 1 else 0) ≤ 1 := by split <;> omega
      have hmul : (2 * 0 + if c = '1' then 1 else 0) * 2 ^ t.length
          ≤ 1 * 2 ^ t.length :=
        Nat.mul_le_mul_right (2 ^ t.length) (by omega)
      have hpow : 2 ^ (t.length + 1) = 2 ^ t.length + 2 ^ t.length := by
        rw [pow_succ]; ring
      omega

/-- Fixed-width binary representation is injective: distinct equal-length
binary strings denote distinct numbers. -/
theorem binToNat_inj (x y : List Char)
    (hlen : x.length = y.length)
    (hx : ∀ c ∈ x, isBinDigit c) (hy : ∀ c ∈ y, isBinDigit c)
    (hne : x ≠ y) : binToNat x ≠ binToNat y := by
  induction x generalizing y with
  | nil =>
      cases y with
      | nil => exact absurd rfl hne
      | cons d t => simp at hlen
  | cons c t ih =>
      cases y with
      | nil => simp at hlen
      | cons d u =>
          have hlen2 : t.length = u.length := by
            simpa using hlen
          have hct := hx c (List.mem_cons_self c t)
          have hdu := hy d (List.mem_cons_self d u)
          have hxt : ∀ e ∈ t, isBinDigit e := fun e he => hx e (List.mem_cons_of_mem c he)
          have hyu : ∀ e ∈ u, isBinDigit e := fun e he => hy e (List.mem_cons_of_mem d he)
          have hconsx : binToNat (c :: t)
              = (2 * 0 + if c = '1' then 1 else 0) * 2 ^ t.length + binToNat t := by
            unfold binToNat
            rw [List.foldl_cons]
            exact binToNat_foldl _ t
          have hconsy : binToNat (d :: u)
              = (2 * 0 + if d = '1' then 1 else 0) * 2 ^ u.length + binToNat u := by
            unfold binToNat
            rw [List.foldl_cons]
            exact binToNat_foldl _ u
          rw [hconsx, hconsy, ← hlen2]
          have hbt := binToNat_lt t hxt
          have hbu := binToNat_lt u hyu
          rw [← hlen2] at hbu
          by_cases hcd : c = d
          · subst hcd
            have htu : t ≠ u := by
              intro h; exact hne (by rw [h])
            have := ih u hlen2 hxt hyu htu
            omega
          · have e0 : (if ('0':Char) = '1' then (1:ℕ) else 0) = 0 := by decide
            have e1 : (if ('1':Char) = '1' then (1:ℕ) else 0) = 1 := by decide
            rcases hct with h0 | h1 <;> rcases hdu with g0 | g1 <;> subst_vars
            · exact absurd rfl hcd
            · rw [e0, e1]
              omega
            · rw [e1, e0]
              omega
            · exact absurd rfl hcd

/-- A Python value that is either a string (modelled as its list of
characters) or some non-string object. -/
inductive PyVal where
  | pstr (s : List Char) : PyVal
  | nonStr : PyVal
deriving DecidableEq

/-- Outcome of `state_swap_eigen_component`: an exception or a real
matrix of dimension `2 ^ len` (real entries are rationals here; the
source writes only 0, ±0.5). -/
inductive SwapOutcome where
  | typeErr : SwapOutcome
  | valueErr : SwapOutcome
  | ok : (d : ℕ) → Matrix (Fin d) (Fin d) ℚ → SwapOutcome

/-- The matrix built by the tail of `state_swap_eigen_component`
(after validation): zeros except entries `(i,i)`, `(j,j)` set to `0.5`
and `(i,j)`, `(j,i)` set to `sign * 0.5`, with `i = int(x,2)`,
`j = int(y,2)`.  Faithful to the numpy assignments whenever `i ≠ j`,
which validation guarantees. -/
def swapComponentMatrix (d : ℕ) (i j : ℕ) (sign : ℤ) :
    Matrix (Fin d) (Fin d) ℚ :=
  Matrix.of fun a b =>
    if (a.val = i ∧ b.val = i) ∨ (a.val = j ∧ b.val = j) then 1/2
    else if (a.val = i ∧ b.val = j) ∨ (a.val = j ∧ b.val = i) then (sign : ℚ)/2
    else 0

/-- The body of `state_swap_eigen_component` after the type check, in
source order: length check, 0-1 character check, `x == y` check, sign
check, then the matrix. -/
def stateSwapStringCase (sx sy : List Char) (sign : ℤ) : SwapOutcome :=
  if sx.length ≠ sy.length then SwapOutcome.valueErr
  else if ¬ (∀ c ∈ sx, isBinDigit c) ∨ ¬ (∀ c ∈ sy, isBinDigit c) then
    SwapOutcome.valueErr
  else if sx = sy then SwapOutcome.valueErr
  else if sign ≠ -1 ∧ sign ≠ 1 then SwapOutcome.valueErr
  else SwapOutcome.ok (2 ^ sx.length)
    (swapComponentMatrix (2 ^ sx.length) (binToNat sx) (binToNat sy) sign)

/-- `state_swap_eigen_component(x, y, sign)`: the type check first
(raising `TypeError` unless both arguments are strings), then the
string-case body. -/
def stateSwapEigenComponent (x y : PyVal) (sign : ℤ) : SwapOutcome :=
  match x, y with
  | PyVal.pstr sx, PyVal.pstr sy => stateSwapStringCase sx sy sign
  | _, _ => SwapOutcome.typeErr

/-- `v` is a Python string. -/
def isPyStr (v : PyVal) : Prop :=
  match v with
  | PyVal.pstr _ => True
  | PyVal.nonStr => False

instance (v : PyVal) : Decidable (isPyStr v) := by
  cases v <;> unfold isPyStr <;> infer_instance

/-- The disjunction of conditions under which
`state_swap_eigen_component` raises `ValueError` (for string inputs),
in the spec's wording. -/
def swapValueErrCond (sx sy : List Char) (sign : ℤ) : Prop :=
  sx.length ≠ sy.length
    ∨ ¬ (∀ c ∈ sx, isBinDigit c) ∨ ¬ (∀ c ∈ sy, isBinDigit c)
    ∨ sx = sy
    ∨ ¬ (sign = -1 ∨ sign = 1)

instance (sx sy : List Char) (sign : ℤ) :
    Decidable (swapValueErrCond sx sy sign) := by
  unfold swapValueErrCond; infer_instance

/-- The conclusion of the C4 claim for valid inputs `x`, `y`, `sign`:
the call succeeds with the square matrix of dimension `2 ^ x.length`
that is symmetric and zero except for the two diagonal entries `1/2` at
`int(x,2)`, `int(y,2)` and the two mirrored off-diagonal entries
`sign * 1/2`; the four positions are distinct and in range and the
values there are nonzero. -/
def swapComponentSpec (x y : List Char) (sign : ℤ) : Prop :=
  stateSwapEigenComponent (PyVal.pstr x) (PyVal.pstr y) sign
      = SwapOutcome.ok (2 ^ x.length)
          (swapComponentMatrix (2 ^ x.length) (binToNat x) (binToNat y) sign)
  ∧ binToNat x < 2 ^ x.length ∧ binToNat y < 2 ^ x.length
  ∧ binToNat x ≠ binToNat y
  ∧ (∀ a b : Fin (2 ^ x.length),
      swapComponentMatrix (2 ^ x.length) (binToNat x) (binToNat y) sign a b
        = swapComponentMatrix (2 ^ x.length) (binToNat x) (binToNat y) sign b a)
  ∧ (∀ a b : Fin (2 ^ x.length),
      (a.val = binToNat x ∧ b.val = binToNat x)
        ∨ (a.val = binToNat y ∧ b.val = binToNat y) →
      swapComponentMatrix (2 ^ x.length) (binToNat x) (binToNat y) sign a b = 1/2)
  ∧ (∀ a b : Fin (2 ^ x.length),
      (a.val = binToNat x ∧ b.val = binToNat y)
        ∨ (a.val = binToNat y ∧ b.val = binToNat x) →
      swapComponentMatrix (2 ^ x.length) (binToNat x) (binToNat y) sign a b
        = (sign : ℚ)/2)
  ∧ (∀ a b : Fin (2 ^ x.length),
      swapComponentMatrix (2 ^ x.length) (binToNat x) (binToNat y) sign a b ≠ 0 →
      (a.val = binToNat x ∨ a.val = binToNat y)
        ∧ (b.val = binToNat x ∨ b.val = binToNat y))
  ∧ (1:ℚ)/2 ≠ 0 ∧ (sign : ℚ)/2 ≠ 0

/-- C4: for every pair of equal-length binary strings `x ≠ y` and sign
in `{-1, +1}`, `state_swap_eigen_component` returns the square matrix of
dimension `2 ^ len(x)` that is symmetric and zero except for diagonal
entries `0.5` at `int(x,2)`, `int(y,2)` and mirrored off-diagonal
entries `sign * 0.5` — exactly four nonzero entries at distinct
in-range positions. -/
theorem state_swap_eigen_component_matrix_form (x y : List Char) (sign : ℤ)
    (hlen : x.length = y.length)
    (hx : ∀ c ∈ x, isBinDigit c) (hy : ∀ c ∈ y, isBinDigit c)
    (hne : x ≠ y) (hsign : sign = -1 ∨ sign = 1) :
    swapComponentSpec x y sign := by
  have hix : binToNat x < 2 ^ x.length := binToNat_lt x hx
  have hiy : binToNat y < 2 ^ x.length := by
    rw [hlen]; exact binToNat_lt y hy
  have hinj : binToNat x ≠ binToNat y := binToNat_inj x y hlen hx hy hne
  refine ⟨?_, hix, hiy, hinj, ?_, ?_, ?_, ?_, by norm_num, ?_⟩
  · show stateSwapStringCase x y sign = _
    unfold stateSwapStringCase
    have h1 : ¬ (x.length ≠ y.length) := by push_neg; exact hlen
    have h2 : ¬ (¬ (∀ c ∈ x, isBinDigit c) ∨ ¬ (∀ c ∈ y, isBinDigit c)) := by
      push_neg; exact ⟨hx, hy⟩
    have h4 : ¬ (sign ≠ -1 ∧ sign ≠ 1) := by
      rintro ⟨g1, g2⟩
      rcases hsign with h | h
      · exact g1 h
      · exact g2 h
    rw [if_neg h1, if_neg h2, if_neg hne, if_neg h4]
  · intro a b
    unfold swapComponentMatrix
    simp only [Matrix.of_apply]
    have e1 : ((a.val = binToNat x ∧ b.val = binToNat x)
          ∨ (a.val = binToNat y ∧ b.val = binToNat y))
        ↔ ((b.val = binToNat x ∧ a.val = binToNat x)
          ∨ (b.val = binToNat y ∧ a.val = binToNat y)) := by tauto
    have e2 : ((a.val = binToNat x ∧ b.val = binToNat y)
          ∨ (a.val = binToNat y ∧ b.val = binToNat x))
        ↔ ((b.val = binToNat x ∧ a.val = binToNat y)
          ∨ (b.val = binToNat y ∧ a.val = binToNat x)) := by tauto
    exact if_congr e1 rfl (if_congr e2 rfl rfl)
  · intro a b hab
    unfold swapComponentMatrix
    simp only [Matrix.of_apply]
    rw [if_pos hab]
  · intro a b hab
    unfold swapComponentMatrix
    simp only [Matrix.of_apply]
    have hno : ¬ ((a.val = binToNat x ∧ b.val = binToNat x)
        ∨ (a.val = binToNat y ∧ b.val = binToNat y)) := by
      rcases hab with ⟨h1, h2⟩ | ⟨h1, h2⟩ <;> rintro (⟨g1, g2⟩ | ⟨g1, g2⟩) <;>
        exact hinj (by omega)
    rw [if_neg hno, if_pos hab]
  · intro a b hab
    unfold swapComponentMatrix at hab
    simp only [Matrix.of_apply] at hab
    by_cases h1 : (a.val = binToNat x ∧ b.val = binToNat x)
        ∨ (a.val = binToNat y ∧ b.val = binToNat y)
    · tauto
    · by_cases h2 : (a.val = binToNat x ∧ b.val = binToNat y)
          ∨ (a.val = binToNat y ∧ b.val = binToNat x)
      · tauto
      · rw [if_neg h1, if_neg h2] at hab
        exact absurd rfl hab
  · rcases hsign with h | h <;> rw [h] <;> norm_num

/-- Witness for C4 at `x = "01"`, `y = "10"`, `sign = 1`. -/
theorem state_swap_eigen_component_matrix_form_witness :
    (List.length ['0', '1'] = List.length ['1', '0']
      ∧ (∀ c ∈ ['0', '1'], isBinDigit c) ∧ (∀ c ∈ ['1', '0'], isBinDigit c)
      ∧ ['0', '1'] ≠ ['1', '0'] ∧ ((1:ℤ) = -1 ∨ (1:ℤ) = 1))
    ∧ swapComponentSpec ['0', '1'] ['1', '0'] 1 :=
  ⟨by decide,
   state_swap_eigen_component_matrix_form ['0', '1'] ['1', '0'] 1
     (by decide) (by decide) (by decide) (by decide) (by decide)⟩


theorem stateSwapStringCase_ne_typeErr (sx sy : List Char) (sign : ℤ) :
    stateSwapStringCase sx sy sign ≠ SwapOutcome.typeErr := by
  unfold stateSwapStringCase
  split_ifs <;> simp

/-- C5: `state_swap_eigen_component` raises `TypeError` iff an argument
is not a string; given two strings it raises `ValueError` iff the
lengths differ, a character outside `{0,1}` occurs, the strings are
equal, or the sign is not `±1`; and it returns a matrix iff none of
those conditions holds. -/
theorem state_swap_eigen_component_errors :
    (∀ (x y : PyVal) (sign : ℤ),
      stateSwapEigenComponent x y sign = SwapOutcome.typeErr
        ↔ ¬ (isPyStr x ∧ isPyStr y))
    ∧ (∀ (sx sy : List Char) (sign : ℤ),
      stateSwapEigenComponent (PyVal.pstr sx) (PyVal.pstr sy) sign
          = SwapOutcome.valueErr
        ↔ swapValueErrCond sx sy sign)
    ∧ (∀ (sx sy : List Char) (sign : ℤ),
      (∃ d M, stateSwapEigenComponent (PyVal.pstr sx) (PyVal.pstr sy) sign
          = SwapOutcome.ok d M)
        ↔ ¬ swapValueErrCond sx sy sign) := by
  have hstr : ∀ (sx sy : List Char) (sign : ℤ),
      (stateSwapStringCase sx sy sign = SwapOutcome.valueErr
        ↔ swapValueErrCond sx sy sign)
      ∧ ((∃ d M, stateSwapStringCase sx sy sign = SwapOutcome.ok d M)
        ↔ ¬ swapValueErrCond sx sy sign) := by
    intro sx sy sign
    by_cases hv : swapValueErrCond sx sy sign
    · have hval : stateSwapStringCase sx sy sign = SwapOutcome.valueErr := by
        unfold stateSwapStringCase
        rcases hv with h | h | h | h | h
        · rw [if_pos h]
        · split_ifs with h1 h2 <;> first | rfl | exact absurd (Or.inl h) h2
        · split_ifs with h1 h2 <;> first | rfl | exact absurd (Or.inr h) h2
        · split_ifs with h1 h2 h3 <;> first | rfl | exact absurd h h3
        · have h4 : sign ≠ -1 ∧ sign ≠ 1 := by
            constructor <;> intro g <;> exact h (by tauto)
          split_ifs with h1 h2 h3 hs <;> first | rfl | exact absurd h4 hs
      refine ⟨⟨fun _ => hv, fun _ => hval⟩, ?_, fun h => absurd hv h⟩
      rintro ⟨d, M, hdm⟩
      rw [hval] at hdm
      exact absurd hdm (by simp)
    · have hok : stateSwapStringCase sx sy sign
          = SwapOutcome.ok (2 ^ sx.length)
            (swapComponentMatrix (2 ^ sx.length) (binToNat sx) (binToNat sy)
              sign) := by
        unfold swapValueErrCond at hv
        push_neg at hv
        obtain ⟨g1, g2, g3, g4, g5⟩ := hv
        unfold stateSwapStringCase
        have n1 : ¬ (sx.length ≠ sy.length) := by
          intro h; exact h g1
        have n2 : ¬ (¬ (∀ c ∈ sx, isBinDigit c) ∨ ¬ (∀ c ∈ sy, isBinDigit c)) := by
          rintro (h | h)
          · exact h g2
          · exact h g3
        have n4 : ¬ (sign ≠ -1 ∧ sign ≠ 1) := by
          rintro ⟨h1, h2⟩
          rcases g5 with h | h
          · exact h1 h
          · exact h2 h
        rw [if_neg n1, if_neg n2, if_neg g4, if_neg n4]
      refine ⟨⟨fun h => ?_, fun h => absurd h hv⟩,
        fun _ => hv, fun _ => ⟨_, _, hok⟩⟩
      rw [hok] at h
      exact absurd h (by simp)
  refine ⟨?_, fun sx sy sign => (hstr sx sy sign).1,
    fun sx sy sign => (hstr sx sy sign).2⟩
  intro x y sign
  cases x with
  | pstr sx =>
      cases y with
      | pstr sy =>
          simp only [stateSwapEigenComponent, isPyStr]
          constructor
          · intro h
            exact absurd h (stateSwapStringCase_ne_typeErr sx sy sign)
          · intro h
            exact absurd ⟨trivial, trivial⟩ h
      | nonStr =>
          simp only [stateSwapEigenComponent, isPyStr]
          simp
  | nonStr =>
      cases y <;> simp only [stateSwapEigenComponent, isPyStr] <;> simp

/-- Data carried by a `DoubleExcitationGate` with a concrete (numeric)
exponent, in half-turns. -/
structure DoubleExcGate where
  exponent : ℝ

/-- Data carried by a `CombinedDoubleExcitationGate` with concrete
weights and exponent. -/
structure CombinedGate where
  weights : Fin 3 → ℝ
  exponent : ℝ

/-- Result of a Python constructor call: `ValueError` or an object. -/
inductive PyResult (α : Type) where
  | valueError : PyResult α
  | ok : α → PyResult α
deriving DecidableEq

/-- Number of non-`None` entries among the four angle arguments, as in
`len([1 for e in [exponent, rads, degs, duration] if e is not None])`. -/
def numSpecified (exponent rads degs duration : Option ℝ) : ℕ :=
  (if exponent.isSome then 1 else 0) + (if rads.isSome then 1 else 0)
    + (if degs.isSome then 1 else 0) + (if duration.isSome then 1 else 0)

/-- Modelled from the spec: the out-of-scope framework helper
`cirq.chosen_angle_to_half_turns(half_turns, rads, degs)` — returns the
given half-turns, or converts radians (one half-turn is pi radians) or
degrees (one half-turn is 180 degrees), defaulting to one half-turn
when no argument is given. -/
noncomputable def chosenAngleToHalfTurns (halfTurns rads degs : Option ℝ) : ℝ :=
  match halfTurns with
  | some t => t
  | none =>
      match rads with
      | some r => r / Real.pi
      | none =>
          match degs with
          | some d => d / 180
          | none => 1

/-- The canonical exponent computed by both `__init__` bodies: duration
`d` becomes `2 * d / pi`, otherwise `chosen_angle_to_half_turns`. -/
noncomputable def canonicalExponent (exponent rads degs duration : Option ℝ) : ℝ :=
  match duration with
  | some d => 2 * d / Real.pi
  | none => chosenAngleToHalfTurns exponent rads degs

/-- `DoubleExcitationGate.__init__`: at most one of the four angle
arguments may be given, otherwise `ValueError`; the argument is
normalised to a canonical exponent. -/
noncomputable def doubleExcInit (exponent rads degs duration : Option ℝ) :
    PyResult DoubleExcGate :=
  if 1 < numSpecified exponent rads degs duration then PyResult.valueError
  else PyResult.ok ⟨canonicalExponent exponent rads degs duration⟩

/-- `CombinedDoubleExcitationGate.absorb_exponent_into_weights`:
each weight becomes `(weight * exponent) % 4` and the exponent is reset
to 1. -/
noncomputable def absorbExponentIntoWeights (g : CombinedGate) : CombinedGate :=
  ⟨fun i => pymod (g.weights i * g.exponent) 4, 1⟩

/-- `CombinedDoubleExcitationGate.__init__`: the same at-most-one rule
and normalisation, then (when `absorb_exponent` is true, its default)
`absorb_exponent_into_weights`. -/
noncomputable def combinedInit (weights : Fin 3 → ℝ) (absorb : Bool)
    (exponent rads degs duration : Option ℝ) : PyResult CombinedGate :=
  if 1 < numSpecified exponent rads degs duration then PyResult.valueError
  else PyResult.ok (if absorb then
    absorbExponentIntoWeights
      ⟨weights, canonicalExponent exponent rads degs duration⟩
    else ⟨weights, canonicalExponent exponent rads degs duration⟩)

/-- `CombinedDoubleExcitationGate._value_equality_values_` under
`cirq.value_equality`: the tuple `PeriodicValue(w * exponent, 4)`;
`PeriodicValue` equality compares `value % period` (period 4 on both
sides), so the comparison data is `(w * exponent) % 4` per term. -/
noncomputable def valueEqualityValues (g : CombinedGate) : Fin 3 → ℝ :=
  fun i => pymod (g.weights i * g.exponent) 4

/-- Number of 1-bits of a 4-bit basis index, `bin(i).count of ones`. -/
def hamming (i : Fin 16) : ℕ :=
  i.val % 2 + i.val / 2 % 2 + i.val / 4 % 2 + i.val / 8 % 2

/-- The eigenvalue-0 projector of the combined gate: the diagonal
projector onto basis states of Hamming weight different from 2. -/
def zeroComponentC : Matrix (Fin 16) (Fin 16) ℂ :=
  Matrix.of fun i j => if i = j then (if hamming i ≠ 2 then 1 else 0) else 0

/-- The three swapped state pairs of the combined gate, in source
order. -/
def statePairs : Fin 3 → List Char × List Char :=
  ![(['1','0','0','1'], ['0','1','1','0']),
    (['0','1','0','1'], ['1','0','1','0']),
    (['0','0','1','1'], ['1','1','0','0'])]

/-- The swap eigen-component of pair `i` with sign `s`, as the complex
16x16 matrix produced by `state_swap_eigen_component` on valid input. -/
noncomputable def swapPairComponent (i : Fin 3) (s : ℤ) : Matrix (Fin 16) (Fin 16) ℂ :=
  (swapComponentMatrix 16 (binToNat (statePairs i).1)
    (binToNat (statePairs i).2) s).map fun q => (q : ℂ)

/-- `CombinedDoubleExcitationGate._eigen_components`: the zero
component followed by, for each weight/state pair in order and each
sign in `(-1, 1)`, the pair `(weight * sign / 2, component)`. -/
noncomputable def combinedEigenComponents (g : CombinedGate) :
    List (ℝ × Matrix (Fin 16) (Fin 16) ℂ) :=
  [(0, zeroComponentC),
   (g.weights 0 * (-1) / 2, swapPairComponent 0 (-1)),
   (g.weights 0 * 1 / 2, swapPairComponent 0 1),
   (g.weights 1 * (-1) / 2, swapPairComponent 1 (-1)),
   (g.weights 1 * 1 / 2, swapPairComponent 1 1),
   (g.weights 2 * (-1) / 2, swapPairComponent 2 (-1)),
   (g.weights 2 * 1 / 2, swapPairComponent 2 1)]

/-- The unitary reconstructed from an eigen-component list at a given
exponent: `sum over components of exp(i * pi * exponent * eigenvalue)
times projector` (the `cirq.EigenGate` reconstruction formula). -/
noncomputable def eigenGateUnitary (exponent : ℝ)
    (comps : List (ℝ × Matrix (Fin 16) (Fin 16) ℂ)) :
    Matrix (Fin 16) (Fin 16) ℂ :=
  (comps.map fun p =>
    Complex.exp ((Real.pi : ℂ) * Complex.I * (exponent : ℂ) * (p.1 : ℂ))
      • p.2).sum

theorem exp_absorb_eq (x s : ℝ) (n : ℤ) (hn : s = (n : ℝ)) :
    Complex.exp ((Real.pi : ℂ) * Complex.I * (1 : ℂ) * ((pymod x 4 * s / 2 : ℝ) : ℂ))
      = Complex.exp ((Real.pi : ℂ) * Complex.I * (x : ℂ) * ((s / 2 : ℝ) : ℂ)) := by
  rw [Complex.exp_eq_exp_iff_exists_int]
  refine ⟨-(⌊x / 4⌋ * n), ?_⟩
  subst hn
  unfold pymod
  push_cast
  ring

/-- C2: `absorb_exponent_into_weights` replaces each weight `w` by
`(w * exponent) % 4`, resets the exponent to 1, and leaves the unitary
reconstructed from `_eigen_components` unchanged. -/
theorem absorb_exponent_into_weights_spec (g : CombinedGate) :
    (∀ i, (absorbExponentIntoWeights g).weights i
        = pymod (g.weights i * g.exponent) 4)
    ∧ (absorbExponentIntoWeights g).exponent = 1
    ∧ eigenGateUnitary (absorbExponentIntoWeights g).exponent
        (combinedEigenComponents (absorbExponentIntoWeights g))
      = eigenGateUnitary g.exponent (combinedEigenComponents g) := by
  refine ⟨fun i => rfl, rfl, ?_⟩
  show eigenGateUnitary 1 _ = _
  unfold eigenGateUnitary combinedEigenComponents
  simp only [List.map_cons, List.map_nil, List.sum_cons, List.sum_nil]
  have hzero : ∀ (e : ℝ),
      Complex.exp ((Real.pi : ℂ) * Complex.I * (e : ℂ) * ((0 : ℝ) : ℂ)) = 1 := by
    intro e
    norm_num
  have habs : ∀ (i : Fin 3) (s : ℝ) (n : ℤ), s = (n : ℝ) →
      Complex.exp ((Real.pi : ℂ) * Complex.I * ((1 : ℝ) : ℂ)
          * (((absorbExponentIntoWeights g).weights i * s / 2 : ℝ) : ℂ))
        = Complex.exp ((Real.pi : ℂ) * Complex.I * (g.exponent : ℂ)
          * ((g.weights i * s / 2 : ℝ) : ℂ)) := by
    intro i s n hn
    have h1 : (absorbExponentIntoWeights g).weights i
        = pymod (g.weights i * g.exponent) 4 := rfl
    rw [h1]
    have h2 := exp_absorb_eq (g.weights i * g.exponent) s n hn
    push_cast at h2 ⊢
    rw [h2]
    congr 1
    ring
  rw [hzero, hzero]
  rw [habs 0 (-1) (-1) (by norm_num), habs 0 1 1 (by norm_num),
      habs 1 (-1) (-1) (by norm_num), habs 1 1 1 (by norm_num),
      habs 2 (-1) (-1) (by norm_num), habs 2 1 1 (by norm_num)]

/-- C3: two `CombinedDoubleExcitationGate` instances compare equal
(via `_value_equality_values_`) iff, for each of the three terms,
`weight * exponent` agrees modulo 4 — independently of the
weight/exponent split. -/
theorem combined_gate_equality_iff (g1 g2 : CombinedGate) :
    valueEqualityValues g1 = valueEqualityValues g2
      ↔ ∀ i, ∃ n : ℤ,
        g1.weights i * g1.exponent - g2.weights i * g2.exponent = 4 * n := by
  constructor
  · intro h i
    exact (pymod_four_eq_iff _ _).1 (congrFun h i)
  · intro h
    funext i
    exact (pymod_four_eq_iff _ _).2 (h i)

/-- C6: for both gate constructors, giving more than one non-null angle
specification raises `ValueError`, and a single given specification is
normalised to the canonical exponent: half-turns pass through, radians
divide by pi, degrees divide by 180, and duration `d` becomes
`2 * d / pi`. -/
theorem gate_init_angle_specification :
    (∀ exponent rads degs duration,
      doubleExcInit exponent rads degs duration = PyResult.valueError
        ↔ 1 < numSpecified exponent rads degs duration)
    ∧ (∀ w a exponent rads degs duration,
      combinedInit w a exponent rads degs duration = PyResult.valueError
        ↔ 1 < numSpecified exponent rads degs duration)
    ∧ (∀ t, doubleExcInit (some t) none none none = PyResult.ok ⟨t⟩)
    ∧ (∀ r, doubleExcInit none (some r) none none
        = PyResult.ok ⟨r / Real.pi⟩)
    ∧ (∀ d, doubleExcInit none none (some d) none = PyResult.ok ⟨d / 180⟩)
    ∧ (∀ d, doubleExcInit none none none (some d)
        = PyResult.ok ⟨2 * d / Real.pi⟩)
    ∧ (∀ w d, combinedInit w false none none none (some d)
        = PyResult.ok ⟨w, 2 * d / Real.pi⟩) := by
  refine ⟨?_, ?_, fun t => rfl, fun r => rfl, fun d => rfl, fun d => rfl,
    fun w d => rfl⟩
  · intro exponent rads degs duration
    unfold doubleExcInit
    split_ifs with h
    · exact ⟨fun _ => h, fun _ => rfl⟩
    · exact ⟨fun g => absurd g (by simp), fun g => absurd g h⟩
  · intro w a exponent rads degs duration
    unfold combinedInit
    split_ifs with h
    · exact ⟨fun _ => h, fun _ => rfl⟩
    · exact ⟨fun g => absurd g (by simp), fun g => absurd g h⟩

/-- C10: constructing a `CombinedDoubleExcitationGate` with the default
`absorb_exponent = True` yields exponent 1 and weights normalised to
`(w * canonical exponent) % 4`, each in `[0, 4)`. -/
theorem combined_init_absorbs_by_default
    (w : Fin 3 → ℝ) (exponent rads degs duration : Option ℝ)
    (g : CombinedGate)
    (h : combinedInit w true exponent rads degs duration = PyResult.ok g) :
    g.exponent = 1
    ∧ (∀ i, g.weights i
        = pymod (w i * canonicalExponent exponent rads degs duration) 4)
    ∧ (∀ i, 0 ≤ g.weights i ∧ g.weights i < 4) := by
  unfold combinedInit at h
  by_cases hc : 1 < numSpecified exponent rads degs duration
  · rw [if_pos hc] at h
    exact absurd h (by simp)
  · rw [if_neg hc, if_pos rfl] at h
    injection h with h2
    subst h2
    refine ⟨rfl, fun i => rfl, fun i => ?_⟩
    exact ⟨pymod_nonneg _ _ (by norm_num), pymod_lt _ _ (by norm_num)⟩

/-- Witness for C10 at weights 0 and no angle argument. -/
theorem combined_init_absorbs_by_default_witness :
    (combinedInit (fun _ => 0) true none none none none
      = PyResult.ok ⟨fun _ => pymod (0 * canonicalExponent none none none none) 4, 1⟩)
    ∧ ((⟨fun _ => pymod (0 * canonicalExponent none none none none) 4, 1⟩
          : CombinedGate).exponent = 1
      ∧ (∀ i, (⟨fun _ => pymod (0 * canonicalExponent none none none none) 4, 1⟩
          : CombinedGate).weights i
        = pymod ((fun _ => (0:ℝ)) i * canonicalExponent none none none none) 4)
      ∧ (∀ i : Fin 3,
          0 ≤ (⟨fun _ => pymod (0 * canonicalExponent none none none none) 4, 1⟩
            : CombinedGate).weights i
          ∧ (⟨fun _ => pymod (0 * canonicalExponent none none none none) 4, 1⟩
            : CombinedGate).weights i < 4)) := by
  have h : combinedInit (fun _ => 0) true none none none none
      = PyResult.ok ⟨fun _ => pymod (0 * canonicalExponent none none none none) 4, 1⟩ := rfl
  exact ⟨h, combined_init_absorbs_by_default (fun _ => 0) none none none none _ h⟩

/-- A gate exponent that may be an unresolved symbolic parameter (a
`sympy.Symbol`) or a concrete number. -/
inductive CExp where
  | sym : CExp
  | const : ℝ → CExp

/-- `cirq.is_parameterized` for a gate whose only parameter is its
exponent. -/
def isParameterized (e : CExp) : Prop :=
  match e with
  | CExp.sym => True
  | CExp.const _ => False

instance (e : CExp) : Decidable (isParameterized e) := by
  cases e <;> unfold isParameterized <;> infer_instance

/-- The unitary of `cirq.Rx(theta)`: diagonal `cos(theta/2)`,
off-diagonal `-i sin(theta/2)`. -/
noncomputable def rxMat (theta : ℝ) : Matrix (Fin 2) (Fin 2) ℂ :=
  Matrix.of fun i j =>
    if i = j then (Real.cos (theta / 2) : ℂ)
    else -Complex.I * (Real.sin (theta / 2) : ℂ)

/-- `cirq.apply_matrix_to_slices` for two one-dimensional slices `a`
and `b` of a 16-entry state vector: rows `a` and `b` are replaced by
the matrix action, everything else is untouched. -/
noncomputable def applyMatrixToSlices (v : Fin 16 → ℂ)
    (m : Matrix (Fin 2) (Fin 2) ℂ) (a b : Fin 16) : Fin 16 → ℂ :=
  fun j =>
    if j = a then m 0 0 * v a + m 0 1 * v b
    else if j = b then m 1 0 * v a + m 1 1 * v b
    else v j

/-- `DoubleExcitationGate._apply_unitary_`: `None` when parameterized,
otherwise `Rx(-2 pi exponent)` applied to the slices for basis states
`0b0011 = 3` and `0b1100 = 12`. -/
noncomputable def doubleApplyUnitary (e : CExp) (v : Fin 16 → ℂ) :
    Option (Fin 16 → ℂ) :=
  match e with
  | CExp.sym => none
  | CExp.const t =>
      some (applyMatrixToSlices v (rxMat (-2 * Real.pi * t)) 3 12)

/-- `CombinedDoubleExcitationGate._apply_unitary_`: `None` when
parameterized, otherwise `Rx(-pi exponent w_k)` applied successively to
the slice pairs `(0b1001, 0b0110)`, `(0b0101, 0b1010)`,
`(0b0011, 0b1100)`. -/
noncomputable def combinedApplyUnitary (w : Fin 3 → ℝ) (e : CExp)
    (v : Fin 16 → ℂ) : Option (Fin 16 → ℂ) :=
  match e with
  | CExp.sym => none
  | CExp.const t =>
      some (applyMatrixToSlices
        (applyMatrixToSlices
          (applyMatrixToSlices v (rxMat (-Real.pi * t * w 0)) 9 6)
          (rxMat (-Real.pi * t * w 1)) 5 10)
        (rxMat (-Real.pi * t * w 2)) 3 12)

/-- C8: for both gates, direct unitary application returns the
`None` sentinel exactly when the exponent is an unresolved symbol, and
returns an actual state array exactly when it is concrete. -/
theorem apply_unitary_symbolic_sentinel :
    (∀ (e : CExp) (v : Fin 16 → ℂ),
      doubleApplyUnitary e v = none ↔ isParameterized e)
    ∧ (∀ (e : CExp) (v : Fin 16 → ℂ),
      (∃ u, doubleApplyUnitary e v = some u) ↔ ¬ isParameterized e)
    ∧ (∀ (w : Fin 3 → ℝ) (e : CExp) (v : Fin 16 → ℂ),
      combinedApplyUnitary w e v = none ↔ isParameterized e)
    ∧ (∀ (w : Fin 3 → ℝ) (e : CExp) (v : Fin 16 → ℂ),
      (∃ u, combinedApplyUnitary w e v = some u) ↔ ¬ isParameterized e) := by
  refine ⟨fun e v => ?_, fun e v => ?_, fun w e v => ?_, fun w e v => ?_⟩ <;>
    cases e <;> simp [doubleApplyUnitary, combinedApplyUnitary, isParameterized]

/-- C7: `DoubleExcitationGate(exponent=1.0)` applied to the uniform
state `(1,...,1)/4` flips the sign of the amplitudes at basis indices
3 and 12 and leaves all other amplitudes unchanged (exactly, hence in
particular up to global phase within tolerance `5e-6`). -/
theorem double_excitation_uniform_state :
    doubleApplyUnitary (CExp.const 1) (fun _ => 1/4)
      = some (fun j => if j = 3 ∨ j = 12 then -(1/4) else 1/4) := by
  show some (applyMatrixToSlices (fun _ => 1/4) (rxMat (-2 * Real.pi * 1)) 3 12)
    = some (fun j => if j = 3 ∨ j = 12 then -(1/4) else 1/4)
  congr 1
  funext j
  unfold applyMatrixToSlices rxMat
  have hcos : Real.cos (-2 * Real.pi * 1 / 2) = -1 := by
    have h : -2 * Real.pi * 1 / 2 = -Real.pi := by ring
    rw [h, Real.cos_neg, Real.cos_pi]
  have hsin : Real.sin (-2 * Real.pi * 1 / 2) = 0 := by
    have h : -2 * Real.pi * 1 / 2 = -Real.pi := by ring
    rw [h, Real.sin_neg, Real.sin_pi, neg_zero]
  by_cases h3 : j = 3
  · subst h3
    rw [if_pos rfl, if_pos (by norm_num)]
    simp only [Matrix.of_apply]
    rw [hcos, hsin]
    norm_num
  · by_cases h12 : j = 12
    · subst h12
      rw [if_neg (by decide), if_pos rfl, if_pos (by norm_num)]
      simp only [Matrix.of_apply]
      rw [hcos, hsin]
      norm_num
    · rw [if_neg h3, if_neg h12, if_neg (by tauto)]

/-- Elementary operations appearing in the three-qubit gate
decompositions, with qubits indexed `control = 0, a = 1, b = 2`. -/
inductive COp where
  | cnotOp (a b : Fin 3) : COp
  | hOp (a : Fin 3) : COp
  | xpowOp (a : Fin 3) (t : ℝ) : COp
  | cczOp (a b c : Fin 3) (t : ℝ) : COp
  | czOp (a b : Fin 3) (t : ℝ) : COp

/-- `CXXYYPowGate._decompose_`: `CNOT(a,b); H(a); CCZ(control,a,b)**e;
CZ(control,b)**(-e/2); H(a); CNOT(a,b)`. -/
noncomputable def cxxyyDecompose (e : ℝ) : List COp :=
  [COp.cnotOp 1 2, COp.hOp 1,
   COp.cczOp 0 1 2 e, COp.czOp 0 2 (-e / 2),
   COp.hOp 1, COp.cnotOp 1 2]

/-- `CYXXYPowGate._decompose_`: `CNOT(a,b); X(a)**0.5;
CCZ(control,a,b)**e; CZ(control,b)**(-e/2); X(a)**(-0.5); CNOT(a,b)`. -/
noncomputable def cyxxyDecompose (e : ℝ) : List COp :=
  [COp.cnotOp 1 2, COp.xpowOp 1 (1/2),
   COp.cczOp 0 1 2 e, COp.czOp 0 2 (-e / 2),
   COp.xpowOp 1 (-(1/2)), COp.cnotOp 1 2]

/-- The shared middle of the two decompositions: the doubly-controlled
phase primitive raised to the gate exponent and the singly-controlled
phase correction with half the exponent. -/
noncomputable def controlledPhaseCore (e : ℝ) : List COp :=
  [COp.cczOp 0 1 2 e, COp.czOp 0 2 (-e / 2)]

def COp.isCCZ (op : COp) : Bool :=
  match op with
  | COp.cczOp _ _ _ _ => true
  | _ => false

def COp.isCZ (op : COp) : Bool :=
  match op with
  | COp.czOp _ _ _ => true
  | _ => false

/-- C9: for every exponent, each controlled three-qubit decomposition
is a fixed two-qubit basis change, then exactly one doubly-controlled
phase primitive raised to the gate exponent, exactly one
singly-controlled phase correction with half the exponent, then the
reverse basis change; the two variants share this middle verbatim and
differ only in the basis-change operations (Hadamard on `a` for XX+YY,
`X**(±1/2)` on `a` for YX-XY). -/
theorem controlled_three_qubit_decompositions (e : ℝ) :
    cxxyyDecompose e
        = [COp.cnotOp 1 2, COp.hOp 1] ++ controlledPhaseCore e
            ++ [COp.hOp 1, COp.cnotOp 1 2]
    ∧ cyxxyDecompose e
        = [COp.cnotOp 1 2, COp.xpowOp 1 (1/2)] ++ controlledPhaseCore e
            ++ [COp.xpowOp 1 (-(1/2)), COp.cnotOp 1 2]
    ∧ controlledPhaseCore e = [COp.cczOp 0 1 2 e, COp.czOp 0 2 (-e / 2)]
    ∧ (cxxyyDecompose e).countP COp.isCCZ = 1
    ∧ (cxxyyDecompose e).countP COp.isCZ = 1
    ∧ (cyxxyDecompose e).countP COp.isCCZ = 1
    ∧ (cyxxyDecompose e).countP COp.isCZ = 1 :=
  ⟨rfl, rfl, rfl, rfl, rfl, rfl, rfl⟩

/-- Bit `q` (big-endian, `q = 0` most significant) of a 4-qubit basis
index. -/
def bitq (qu : Fin 4) (j : Fin 16) : Bool :=
  Nat.testBit j.val (3 - qu.val)

/-- Flip bit `q` of a basis index. -/
def flipq (qu : Fin 4) (j : Fin 16) : Fin 16 :=
  ⟨(j.val ^^^ 2 ^ (3 - qu.val)) % 16, Nat.mod_lt _ (by norm_num)⟩

/-- The basis permutation of `CNOT(c, t)`: flip bit `t` when bit `c`
is set. -/
def cnotPerm (c t : Fin 4) (j : Fin 16) : Fin 16 :=
  if bitq c j then flipq t j else j

/-- Elementary operations of `DoubleExcitationGate._decompose_`, on
qubits `p = 0, q = 1, r = 2, s = 3`: `CNOT`, `X`, `Z**(1/8)`,
`Z**(-1/8)`, and `X**exponent` / `X**(-exponent)`. -/
inductive DOp where
  | cnot (c t : Fin 4) : DOp
  | xg (q : Fin 4) : DOp
  | zEighth (q : Fin 4) : DOp
  | zEighthInv (q : Fin 4) : DOp
  | xpowPlus (q : Fin 4) : DOp
  | xpowMinus (q : Fin 4) : DOp
deriving DecidableEq

/-- The cirq unitary of each elementary operation at gate exponent `e`
(`Z**t = diag(1, exp(i pi t))`; `X**t` has diagonal
`(1 + exp(i pi t))/2` and off-diagonal `(1 - exp(i pi t))/2`). -/
noncomputable def opMat (e : ℝ) : DOp → Matrix (Fin 16) (Fin 16) ℂ
  | DOp.cnot c t => Matrix.of fun i j => if i = cnotPerm c t j then 1 else 0
  | DOp.xg q => Matrix.of fun i j => if i = flipq q j then 1 else 0
  | DOp.zEighth q => Matrix.of fun i j =>
      if i = j then
        (if bitq q j then Complex.exp ((Real.pi : ℂ) * Complex.I / 8) else 1)
      else 0
  | DOp.zEighthInv q => Matrix.of fun i j =>
      if i = j then
        (if bitq q j then Complex.exp (-((Real.pi : ℂ) * Complex.I / 8)) else 1)
      else 0
  | DOp.xpowPlus q => Matrix.of fun i j =>
      if i = j then (1 + Complex.exp ((Real.pi : ℂ) * Complex.I * (e : ℂ))) / 2
      else if i = flipq q j then
        (1 - Complex.exp ((Real.pi : ℂ) * Complex.I * (e : ℂ))) / 2
      else 0
  | DOp.xpowMinus q => Matrix.of fun i j =>
      if i = j then
        (1 + Complex.exp (-((Real.pi : ℂ) * Complex.I * (e : ℂ)))) / 2
      else if i = flipq q j then
        (1 - Complex.exp (-((Real.pi : ℂ) * Complex.I * (e : ℂ)))) / 2
      else 0

/-- The 16th root of unity `exp(i pi / 8)` carried by the `Z**(1/8)`
blocks. -/
noncomputable def zeta : ℂ := Complex.exp ((Real.pi : ℂ) * Complex.I / 8)

theorem zeta_pow_16 : zeta ^ 16 = 1 := by
  unfold zeta
  rw [← Complex.exp_nat_mul]
  have h : ((16 : ℕ) : ℂ) * ((Real.pi : ℂ) * Complex.I / 8)
      = 2 * (Real.pi : ℂ) * Complex.I := by push_cast; ring
  rw [h, Complex.exp_two_pi_mul_I]

theorem zeta_pow_mod (n : ℕ) : zeta ^ (n % 16) = zeta ^ n := by
  conv_rhs => rw [← Nat.div_add_mod n 16]
  rw [pow_add, pow_mul, zeta_pow_16, one_pow, one_mul]

theorem zeta_ne_zero : zeta ≠ 0 := Complex.exp_ne_zero _

theorem zeta_pow_15 : zeta ^ 15
    = Complex.exp (-((Real.pi : ℂ) * Complex.I / 8)) := by
  have h : zeta ^ 15 * zeta = 1 := by
    rw [← pow_succ, zeta_pow_16]
  have h2 : Complex.exp (-((Real.pi : ℂ) * Complex.I / 8)) * zeta = 1 := by
    unfold zeta
    rw [← Complex.exp_add]
    norm_num
  exact mul_right_cancel₀ zeta_ne_zero (h.trans h2.symm)

/-- A generalized permutation matrix: column `j` carries the single
entry `zeta ^ ph j` in row `perm j`. -/
structure GPerm where
  perm : Fin 16 → Fin 16
  ph : Fin 16 → Fin 16
deriving DecidableEq

def gpdId : GPerm := ⟨id, fun _ => 0⟩

/-- Composition of generalized permutations, `g2` after `g1`. -/
def gpdComp (g2 g1 : GPerm) : GPerm :=
  ⟨fun j => g2.perm (g1.perm j), fun j => g1.ph j + g2.ph (g1.perm j)⟩

/-- The matrix of a generalized permutation. -/
noncomputable def gpdMat (g : GPerm) : Matrix (Fin 16) (Fin 16) ℂ :=
  Matrix.of fun i j => if i = g.perm j then zeta ^ (g.ph j).val else 0

theorem zeta_pow_fin_add (a b : Fin 16) :
    zeta ^ ((a + b : Fin 16)).val = zeta ^ a.val * zeta ^ b.val := by
  have h : ((a + b : Fin 16)).val = (a.val + b.val) % 16 := rfl
  rw [h, zeta_pow_mod, pow_add]

theorem gpdMat_id : gpdMat gpdId = 1 := by
  funext i j
  unfold gpdMat gpdId
  simp only [Matrix.of_apply, id, Fin.val_zero, pow_zero, Matrix.one_apply]

theorem gpdMat_comp (g2 g1 : GPerm) :
    gpdMat (gpdComp g2 g1) = gpdMat g2 * gpdMat g1 := by
  funext i j
  unfold gpdMat gpdComp
  rw [Matrix.mul_apply]
  simp only [Matrix.of_apply]
  rw [Finset.sum_eq_single (g1.perm j)]
  · rw [if_pos rfl]
    by_cases h : i = g2.perm (g1.perm j)
    · rw [if_pos h, if_pos h, zeta_pow_fin_add, mul_comm]
    · rw [if_neg h, if_neg h, zero_mul]
  · intro k hk hne
    rw [if_neg hne, mul_zero]
  · intro h
    exact absurd (Finset.mem_univ _) h

/-- The generalized permutation of each constant (exponent-free)
elementary operation; parameterized `X**(±e)` ops get a dummy value and
are excluded via `DOp.isConst`. -/
def gpdOf : DOp → GPerm
  | DOp.cnot c t => ⟨cnotPerm c t, fun _ => 0⟩
  | DOp.xg q => ⟨flipq q, fun _ => 0⟩
  | DOp.zEighth q => ⟨id, fun j => if bitq q j then 1 else 0⟩
  | DOp.zEighthInv q => ⟨id, fun j => if bitq q j then 15 else 0⟩
  | DOp.xpowPlus _ => gpdId
  | DOp.xpowMinus _ => gpdId

def DOp.isConst : DOp → Bool
  | DOp.xpowPlus _ => false
  | DOp.xpowMinus _ => false
  | _ => true

theorem opMat_const (e : ℝ) (op : DOp) (h : op.isConst = true) :
    opMat e op = gpdMat (gpdOf op) := by
  cases op with
  | cnot c t =>
      funext i j
      unfold opMat gpdMat gpdOf
      simp only [Matrix.of_apply, Fin.val_zero, pow_zero]
  | xg q =>
      funext i j
      unfold opMat gpdMat gpdOf
      simp only [Matrix.of_apply, Fin.val_zero, pow_zero]
  | zEighth q =>
      funext i j
      unfold opMat gpdMat gpdOf
      simp only [Matrix.of_apply, id]
      by_cases hij : i = j
      · rw [if_pos hij, if_pos hij]
        by_cases hb : bitq q j
        · rw [if_pos hb, if_pos hb]
          norm_num [zeta]
        · rw [if_neg hb, if_neg hb, Fin.val_zero, pow_zero]
      · rw [if_neg hij, if_neg hij]
  | zEighthInv q =>
      funext i j
      unfold opMat gpdMat gpdOf
      simp only [Matrix.of_apply, id]
      by_cases hij : i = j
      · rw [if_pos hij, if_pos hij]
        by_cases hb : bitq q j
        · rw [if_pos hb, if_pos hb]
          have h15 : zeta ^ ((15 : Fin 16)).val
              = Complex.exp (-((Real.pi : ℂ) * Complex.I / 8)) := by
            rw [show ((15 : Fin 16)).val = 15 from rfl, zeta_pow_15]
          rw [h15]
        · rw [if_neg hb, if_neg hb, Fin.val_zero, pow_zero]
      · rw [if_neg hij, if_neg hij]
  | xpowPlus q => simp [DOp.isConst] at h
  | xpowMinus q => simp [DOp.isConst] at h

/-- Composite generalized permutation of a list of constant operations
applied in time order. -/
def compList (l : List DOp) : GPerm :=
  l.foldl (fun acc op => gpdComp (gpdOf op) acc) gpdId

theorem compList_fold_mat (l : List DOp) (g0 : GPerm) :
    gpdMat (l.foldl (fun acc op => gpdComp (gpdOf op) acc) g0)
      = gpdMat (compList l) * gpdMat g0 := by
  induction l generalizing g0 with
  | nil =>
      show gpdMat g0 = gpdMat gpdId * gpdMat g0
      rw [gpdMat_id, one_mul]
  | cons op t ih =>
      show gpdMat (t.foldl _ (gpdComp (gpdOf op) g0)) = _
      rw [ih (gpdComp (gpdOf op) g0), gpdMat_comp]
      have h2 : compList (op :: t)
          = t.foldl (fun acc o => gpdComp (gpdOf o) acc) (gpdComp (gpdOf op) gpdId) := rfl
      rw [h2, ih (gpdComp (gpdOf op) gpdId), gpdMat_comp, gpdMat_id, mul_one,
        mul_assoc]

/-- Matrix of the time-ordered product of a list of operations:
`foldl` starting at the identity, multiplying each new operation on the
left. -/
noncomputable def prodOps (e : ℝ) (l : List DOp) :
    Matrix (Fin 16) (Fin 16) ℂ :=
  (l.map (opMat e)).foldl (fun acc m => m * acc) 1

theorem matFold_from (L : List (Matrix (Fin 16) (Fin 16) ℂ))
    (M0 : Matrix (Fin 16) (Fin 16) ℂ) :
    L.foldl (fun acc m => m * acc) M0
      = L.foldl (fun acc m => m * acc) 1 * M0 := by
  induction L generalizing M0 with
  | nil => simp
  | cons m t ih =>
      show t.foldl _ (m * M0) = t.foldl _ (m * 1) * M0
      rw [ih (m * M0), ih (m * 1), mul_one, mul_assoc]

theorem prodOps_append (e : ℝ) (l1 l2 : List DOp) :
    prodOps e (l1 ++ l2) = prodOps e l2 * prodOps e l1 := by
  unfold prodOps
  rw [List.map_append, List.foldl_append, matFold_from]

theorem prodOps_single (e : ℝ) (op : DOp) :
    prodOps e [op] = opMat e op := by
  unfold prodOps
  simp

theorem prodOps_const (e : ℝ) (l : List DOp)
    (h : l.all DOp.isConst = true) :
    prodOps e l = gpdMat (compList l) := by
  induction l with
  | nil =>
      unfold prodOps compList
      simp [gpdMat_id]
  | cons op t ih =>
      rw [List.all_cons, Bool.and_eq_true] at h
      have hop := h.1
      have ht := h.2
      unfold prodOps
      rw [List.map_cons, List.foldl_cons, matFold_from]
      have h1 : (t.map (opMat e)).foldl (fun acc m => m * acc) 1 = prodOps e t := rfl
      rw [h1, ih ht]
      have h2 : compList (op :: t)
          = t.foldl (fun acc o => gpdComp (gpdOf o) acc) (gpdComp (gpdOf op) gpdId) := rfl
      rw [h2, compList_fold_mat, gpdMat_comp, gpdMat_id, mul_one,
        opMat_const e op hop, mul_one]

/-- `rq_phase_block`: `Z(q)**0.125, CNOT(r,q), Z(q)**-0.125`. -/
def rqPhaseBlock : List DOp := [DOp.zEighth 1, DOp.cnot 2 1, DOp.zEighthInv 1]

/-- `srq_parity_transform`: `CNOT(s,r), CNOT(r,q), CNOT(s,r)`. -/
def srqParity : List DOp := [DOp.cnot 3 2, DOp.cnot 2 1, DOp.cnot 3 2]

/-- `phase_parity_block`, flattened in source order. -/
def phaseParityBlock : List DOp := rqPhaseBlock ++ srqParity ++ rqPhaseBlock

/-- `DoubleExcitationGate._decompose_`, flattened in yield order on
qubits `p = 0, q = 1, r = 2, s = 3`. -/
def decomposeOps : List DOp :=
  [DOp.cnot 2 3, DOp.cnot 1 0, DOp.cnot 1 2, DOp.xpowMinus 1]
    ++ phaseParityBlock
    ++ [DOp.cnot 0 1, DOp.xg 1]
    ++ phaseParityBlock
    ++ [DOp.xpowPlus 1]
    ++ phaseParityBlock
    ++ [DOp.cnot 0 1, DOp.xg 1]
    ++ phaseParityBlock
    ++ [DOp.cnot 1 0, DOp.cnot 1 2, DOp.cnot 2 3]

/-- The composed unitary of the decomposition at exponent `e`. -/
noncomputable def decomposedUnitary (e : ℝ) : Matrix (Fin 16) (Fin 16) ℂ :=
  prodOps e decomposeOps

/-- Constant segment before `X(q)**-exponent`. -/
def w1Ops : List DOp := [DOp.cnot 2 3, DOp.cnot 1 0, DOp.cnot 1 2]

/-- Constant segment between `X(q)**-exponent` and `X(q)**exponent`. -/
def w2Ops : List DOp :=
  phaseParityBlock ++ [DOp.cnot 0 1, DOp.xg 1] ++ phaseParityBlock

/-- Constant segment after `X(q)**exponent`. -/
def w3Ops : List DOp :=
  phaseParityBlock ++ [DOp.cnot 0 1, DOp.xg 1] ++ phaseParityBlock
    ++ [DOp.cnot 1 0, DOp.cnot 1 2, DOp.cnot 2 3]

theorem decomposeOps_split :
    decomposeOps
      = w1Ops ++ ([DOp.xpowMinus 1]
        ++ (w2Ops ++ ([DOp.xpowPlus 1] ++ w3Ops))) := by
  simp [decomposeOps, w1Ops, w2Ops, w3Ops]

/-- The eigenvalue-0 projector of `DoubleExcitationGate`,
`np.diag([1,1,1,0,1,1,1,1,1,1,1,1,0,1,1,1])`, over the rationals. -/
def d0Q : Matrix (Fin 16) (Fin 16) ℚ :=
  Matrix.of fun i j => if i = j then (if i = 3 ∨ i = 12 then 0 else 1) else 0

/-- The eigenvalue `-1` component: `0.5` at `(3,3)` and `(12,12)`,
`-0.5` at `(3,12)` and `(12,3)`. -/
def minusQ : Matrix (Fin 16) (Fin 16) ℚ :=
  Matrix.of fun i j =>
    if (i = 3 ∧ j = 3) ∨ (i = 12 ∧ j = 12) then 1/2
    else if (i = 3 ∧ j = 12) ∨ (i = 12 ∧ j = 3) then -(1/2)
    else 0

/-- The eigenvalue `+1` component: `0.5` at all four positions. -/
def plusQ : Matrix (Fin 16) (Fin 16) ℚ :=
  Matrix.of fun i j =>
    if (i = 3 ∧ j = 3) ∨ (i = 12 ∧ j = 12) then 1/2
    else if (i = 3 ∧ j = 12) ∨ (i = 12 ∧ j = 3) then 1/2
    else 0

/-- Embedding of a rational matrix into the complex matrices. -/
noncomputable def castMat (M : Matrix (Fin 16) (Fin 16) ℚ) :
    Matrix (Fin 16) (Fin 16) ℂ :=
  M.map fun q => (q : ℂ)

/-- `DoubleExcitationGate._eigen_components`: eigenvalues 0, -1, +1
with the diagonal projector and the two swap components. -/
noncomputable def doubleEigenComponents :
    List (ℝ × Matrix (Fin 16) (Fin 16) ℂ) :=
  [(0, castMat d0Q), (-1, castMat minusQ), (1, castMat plusQ)]

/-- Embedding of an integer matrix into the complex matrices. -/
noncomputable def castMatZ (M : Matrix (Fin 16) (Fin 16) ℤ) :
    Matrix (Fin 16) (Fin 16) ℂ :=
  M.map fun z => (z : ℂ)

theorem castMatZ_add (M N : Matrix (Fin 16) (Fin 16) ℤ) :
    castMatZ (M + N) = castMatZ M + castMatZ N := by
  funext i j
  simp [castMatZ]

theorem castMatZ_sub (M N : Matrix (Fin 16) (Fin 16) ℤ) :
    castMatZ (M - N) = castMatZ M - castMatZ N := by
  funext i j
  simp [castMatZ]

/-- The integer matrix of a generalized permutation whose phases are
all 0 or 8 (so entries `1` or `-1`). -/
def intOf (g : GPerm) : Matrix (Fin 16) (Fin 16) ℤ :=
  Matrix.of fun i j =>
    if i = g.perm j then (if g.ph j = 8 then -1 else 1) else 0

theorem zeta_pow_8 : zeta ^ 8 = -1 := by
  unfold zeta
  rw [← Complex.exp_nat_mul]
  have h : ((8 : ℕ) : ℂ) * ((Real.pi : ℂ) * Complex.I / 8)
      = (Real.pi : ℂ) * Complex.I := by push_cast; ring
  rw [h, Complex.exp_pi_mul_I]

theorem gpdMat_eq_cast (g : GPerm) (h : ∀ j, g.ph j = 0 ∨ g.ph j = 8) :
    gpdMat g = castMatZ (intOf g) := by
  funext i j
  unfold gpdMat castMatZ intOf
  simp only [Matrix.map_apply, Matrix.of_apply]
  by_cases hij : i = g.perm j
  · rw [if_pos hij, if_pos hij]
    rcases h j with h0 | h8
    · rw [h0, if_neg (by decide : ¬ ((0 : Fin 16) = 8))]
      norm_num
    · rw [h8, if_pos rfl, show ((8 : Fin 16)).val = 8 from rfl, zeta_pow_8]
      norm_num
  · rw [if_neg hij, if_neg hij]
    norm_num

def segA : GPerm := compList w1Ops
def segB : GPerm := compList w2Ops
def segC : GPerm := compList w3Ops
def gX1 : GPerm := gpdOf (DOp.xg 1)
def gComp1 : GPerm := gpdComp segC (gpdComp segB segA)
def gComp2 : GPerm := gpdComp segC (gpdComp segB (gpdComp gX1 segA))
def gComp3 : GPerm := gpdComp segC (gpdComp gX1 (gpdComp segB segA))
def gComp4 : GPerm :=
  gpdComp segC (gpdComp gX1 (gpdComp segB (gpdComp gX1 segA)))

theorem gComp_phases :
    (∀ j, gComp1.ph j = 0 ∨ gComp1.ph j = 8)
    ∧ (∀ j, gComp2.ph j = 0 ∨ gComp2.ph j = 8)
    ∧ (∀ j, gComp3.ph j = 0 ∨ gComp3.ph j = 8)
    ∧ (∀ j, gComp4.ph j = 0 ∨ gComp4.ph j = 8) := by decide

/-- Twice the eigenvalue-0 projector, over the integers. -/
def twoD0Z : Matrix (Fin 16) (Fin 16) ℤ :=
  Matrix.of fun i j => if i = j then (if i = 3 ∨ i = 12 then 0 else 2) else 0

/-- Four times the eigenvalue `+1` component, over the integers. -/
def fourPlusZ : Matrix (Fin 16) (Fin 16) ℤ :=
  Matrix.of fun i j =>
    if (i = 3 ∧ j = 3) ∨ (i = 12 ∧ j = 12) then 2
    else if (i = 3 ∧ j = 12) ∨ (i = 12 ∧ j = 3) then 2
    else 0

/-- Four times the eigenvalue `-1` component, over the integers. -/
def fourMinusZ : Matrix (Fin 16) (Fin 16) ℤ :=
  Matrix.of fun i j =>
    if (i = 3 ∧ j = 3) ∨ (i = 12 ∧ j = 12) then 2
    else if (i = 3 ∧ j = 12) ∨ (i = 12 ∧ j = 3) then -2
    else 0

set_option maxRecDepth 8000 in
theorem gComp_d0_identity :
    ∀ i j, twoD0Z i j = (intOf gComp1 + intOf gComp4) i j := by decide

set_option maxRecDepth 8000 in
theorem gComp_plus_identity :
    ∀ i j, fourPlusZ i j
      = (intOf gComp1 + intOf gComp2 - intOf gComp3 - intOf gComp4) i j := by
  decide

set_option maxRecDepth 8000 in
theorem gComp_minus_identity :
    ∀ i j, fourMinusZ i j
      = (intOf gComp1 - intOf gComp2 + intOf gComp3 - intOf gComp4) i j := by
  decide

theorem flipq_ne_self : ∀ (q : Fin 4) (j : Fin 16), flipq q j ≠ j := by decide

theorem xpowPlus_split (e : ℝ) (q : Fin 4) :
    opMat e (DOp.xpowPlus q)
      = ((1 + Complex.exp ((Real.pi : ℂ) * Complex.I * (e : ℂ))) / 2)
          • (1 : Matrix (Fin 16) (Fin 16) ℂ)
        + ((1 - Complex.exp ((Real.pi : ℂ) * Complex.I * (e : ℂ))) / 2)
          • gpdMat (gpdOf (DOp.xg q)) := by
  funext i j
  unfold opMat gpdMat gpdOf
  simp only [Matrix.add_apply, Matrix.smul_apply, Matrix.one_apply,
    Matrix.of_apply, Fin.val_zero, pow_zero, smul_eq_mul]
  split_ifs with h1 h2 h3
  · exact absurd (h1.symm.trans h2) (Ne.symm (flipq_ne_self q j))
  · ring
  · ring
  · ring

theorem xpowMinus_split (e : ℝ) (q : Fin 4) :
    opMat e (DOp.xpowMinus q)
      = ((1 + Complex.exp (-((Real.pi : ℂ) * Complex.I * (e : ℂ)))) / 2)
          • (1 : Matrix (Fin 16) (Fin 16) ℂ)
        + ((1 - Complex.exp (-((Real.pi : ℂ) * Complex.I * (e : ℂ)))) / 2)
          • gpdMat (gpdOf (DOp.xg q)) := by
  funext i j
  unfold opMat gpdMat gpdOf
  simp only [Matrix.add_apply, Matrix.smul_apply, Matrix.one_apply,
    Matrix.of_apply, Fin.val_zero, pow_zero, smul_eq_mul]
  split_ifs with h1 h2 h3
  · exact absurd (h1.symm.trans h2) (Ne.symm (flipq_ne_self q j))
  · ring
  · ring
  · ring

theorem sandwich_expand (T3 T2 T1 X : Matrix (Fin 16) (Fin 16) ℂ)
    (a1 b1 c1 d1 : ℂ) :
    (((T3 * (a1 • 1 + b1 • X)) * T2) * (c1 • 1 + d1 • X)) * T1
      = (a1 * c1) • (T3 * (T2 * T1))
        + (a1 * d1) • (T3 * (T2 * (X * T1)))
        + (b1 * c1) • (T3 * (X * (T2 * T1)))
        + (b1 * d1) • (T3 * (X * (T2 * (X * T1)))) := by
  simp only [mul_add, add_mul, smul_mul_assoc, mul_smul_comm, mul_one,
    one_mul, smul_smul, mul_assoc]
  match_scalars <;> ring

theorem castMat_d0 : castMat d0Q = (1/2 : ℂ) • castMatZ twoD0Z := by
  funext i j
  unfold castMat castMatZ d0Q twoD0Z
  simp only [Matrix.map_apply, Matrix.smul_apply, Matrix.of_apply,
    smul_eq_mul]
  split_ifs <;> norm_num

theorem castMat_plus : castMat plusQ = (1/4 : ℂ) • castMatZ fourPlusZ := by
  funext i j
  unfold castMat castMatZ plusQ fourPlusZ
  simp only [Matrix.map_apply, Matrix.smul_apply, Matrix.of_apply,
    smul_eq_mul]
  split_ifs <;> norm_num

theorem castMat_minus : castMat minusQ = (1/4 : ℂ) • castMatZ fourMinusZ := by
  funext i j
  unfold castMat castMatZ minusQ fourMinusZ
  simp only [Matrix.map_apply, Matrix.smul_apply, Matrix.of_apply,
    smul_eq_mul]
  split_ifs <;> norm_num

/-- C1: for every real exponent, the composed unitary of
`DoubleExcitationGate._decompose_` equals the gate's eigen-decomposition
unitary `sum of exp(i pi exponent eigenvalue) projectors` up to global
phase (here exactly, with phase 1) — in particular at the exponents
1.0, 0.5, 0.25, 0.1, 0.0, -0.5, 7/3, -1/7, and with correct reduction
beyond one half-turn since the statement covers all reals. -/
theorem double_excitation_decomposition_eigen (e : ℝ) :
    ∃ c : ℂ, Complex.abs c = 1
      ∧ decomposedUnitary e = c • eigenGateUnitary e doubleEigenComponents := by
  refine ⟨1, by simp, ?_⟩
  rw [one_smul]
  have hsplit : decomposedUnitary e
      = (((prodOps e w3Ops * opMat e (DOp.xpowPlus 1)) * prodOps e w2Ops)
          * opMat e (DOp.xpowMinus 1)) * prodOps e w1Ops := by
    unfold decomposedUnitary
    rw [decomposeOps_split, prodOps_append, prodOps_append, prodOps_append,
      prodOps_append, prodOps_single, prodOps_single]
  have hW1 : prodOps e w1Ops = gpdMat segA := prodOps_const e w1Ops (by decide)
  have hW2 : prodOps e w2Ops = gpdMat segB := prodOps_const e w2Ops (by decide)
  have hW3 : prodOps e w3Ops = gpdMat segC := prodOps_const e w3Ops (by decide)
  rw [hsplit, hW1, hW2, hW3, xpowPlus_split e 1, xpowMinus_split e 1]
  rw [show gpdOf (DOp.xg 1) = gX1 from rfl]
  rw [sandwich_expand]
  rw [show gpdMat segC * (gpdMat segB * gpdMat segA) = gpdMat gComp1 by
        rw [← gpdMat_comp, ← gpdMat_comp]; rfl]
  rw [show gpdMat segC * (gpdMat segB * (gpdMat gX1 * gpdMat segA))
        = gpdMat gComp2 by
        rw [← gpdMat_comp, ← gpdMat_comp, ← gpdMat_comp]; rfl]
  rw [show gpdMat segC * (gpdMat gX1 * (gpdMat segB * gpdMat segA))
        = gpdMat gComp3 by
        rw [← gpdMat_comp, ← gpdMat_comp, ← gpdMat_comp]; rfl]
  rw [show gpdMat segC
        * (gpdMat gX1 * (gpdMat segB * (gpdMat gX1 * gpdMat segA)))
        = gpdMat gComp4 by
        rw [← gpdMat_comp, ← gpdMat_comp, ← gpdMat_comp, ← gpdMat_comp]; rfl]
  have hR : eigenGateUnitary e doubleEigenComponents
      = castMat d0Q
        + Complex.exp (-((Real.pi : ℂ) * Complex.I * (e : ℂ)))
            • castMat minusQ
        + Complex.exp ((Real.pi : ℂ) * Complex.I * (e : ℂ))
            • castMat plusQ := by
    unfold eigenGateUnitary doubleEigenComponents
    simp only [List.map_cons, List.map_nil, List.sum_cons, List.sum_nil]
    have h0 : Complex.exp ((Real.pi : ℂ) * Complex.I * (e : ℂ)
        * (((0:ℝ)) : ℂ)) = 1 := by
      norm_num
    have hm : Complex.exp ((Real.pi : ℂ) * Complex.I * (e : ℂ)
        * ((((-1):ℝ)) : ℂ))
        = Complex.exp (-((Real.pi : ℂ) * Complex.I * (e : ℂ))) := by
      congr 1
      push_cast
      ring
    have hp : Complex.exp ((Real.pi : ℂ) * Complex.I * (e : ℂ)
        * ((((1):ℝ)) : ℂ))
        = Complex.exp ((Real.pi : ℂ) * Complex.I * (e : ℂ)) := by
      congr 1
      push_cast
      ring
    rw [h0, hm, hp, one_smul]
    abel
  rw [hR, castMat_d0, castMat_plus, castMat_minus]
  have hid1 : castMatZ twoD0Z = gpdMat gComp1 + gpdMat gComp4 := by
    have h : twoD0Z = intOf gComp1 + intOf gComp4 := by
      funext i j; exact gComp_d0_identity i j
    rw [h, castMatZ_add, ← gpdMat_eq_cast _ gComp_phases.1,
      ← gpdMat_eq_cast _ gComp_phases.2.2.2]
  have hid2 : castMatZ fourPlusZ
      = gpdMat gComp1 + gpdMat gComp2 - gpdMat gComp3 - gpdMat gComp4 := by
    have h : fourPlusZ
        = intOf gComp1 + intOf gComp2 - intOf gComp3 - intOf gComp4 := by
      funext i j; exact gComp_plus_identity i j
    rw [h, castMatZ_sub, castMatZ_sub, castMatZ_add,
      ← gpdMat_eq_cast _ gComp_phases.1, ← gpdMat_eq_cast _ gComp_phases.2.1,
      ← gpdMat_eq_cast _ gComp_phases.2.2.1,
      ← gpdMat_eq_cast _ gComp_phases.2.2.2]
  have hid3 : castMatZ fourMinusZ
      = gpdMat gComp1 - gpdMat gComp2 + gpdMat gComp3 - gpdMat gComp4 := by
    have h : fourMinusZ
        = intOf gComp1 - intOf gComp2 + intOf gComp3 - intOf gComp4 := by
      funext i j; exact gComp_minus_identity i j
    rw [h, castMatZ_sub, castMatZ_add, castMatZ_sub,
      ← gpdMat_eq_cast _ gComp_phases.1, ← gpdMat_eq_cast _ gComp_phases.2.1,
      ← gpdMat_eq_cast _ gComp_phases.2.2.1,
      ← gpdMat_eq_cast _ gComp_phases.2.2.2]
  rw [hid1, hid2, hid3]
  have hab : Complex.exp ((Real.pi : ℂ) * Complex.I * (e : ℂ))
      * Complex.exp (-((Real.pi : ℂ) * Complex.I * (e : ℂ))) = 1 := by
    rw [← Complex.exp_add]
    have h : (Real.pi : ℂ) * Complex.I * (e : ℂ)
        + -((Real.pi : ℂ) * Complex.I * (e : ℂ)) = 0 := by ring
    rw [h, Complex.exp_zero]
  match_scalars <;>
    first
      | linear_combination (1/4 : ℂ) * hab
      | linear_combination (-1/4 : ℂ) * hab
      | ring
